import Mathlib

/-!
Shallow embedding of `src/plot_top_camera_params.py`: a script that walks a
directory tree for raw camera files, extracts four EXIF tags per file,
tabulates the ten most frequent values of each tag and plots them.

Modelling conventions:
  * Python dicts are insertion-ordered association lists with distinct keys.
  * A pandas column is a `List (Option α)`: position = row index of the
    default RangeIndex, `none` = a missing cell (NaN).
  * Machine floats produced by `eval` on ratio strings are modelled as exact
    rationals.
  * A raised exception is `none` / `Except.error`.
  * External collaborators (exifread, os.walk, argparse) are modelled by
    their documented contracts: a file carries the raw tag table that
    `exifread.process_file` would extract from it (tag objects represented by
    their `str()` form), `os.walk` is a top-down tree walk, and
    `parse_known_args` splits the command line into the one recognized
    positional argument and the unknown remainder.
-/

namespace PlotTop

/-- The fixed four-tag wanted set (source lines 18-21). -/
def exif_subset : List String :=
  ["EXIF ExposureTime", "EXIF ISOSpeedRatings", "EXIF FocalLength", "EXIF FNumber"]

/-- A tag value after normalization in `collect_tags`: the `str()` form, or for
the aperture tag the numeric result of evaluating that string. -/
inductive TagVal where
  | str (s : String)
  | num (q : ℚ)
deriving DecidableEq, Repr

/-- `filter_dict` (source lines 37-45): iterate over the (key, value) pairs of
the mapping, keeping in order exactly those on which the callback returns
true, in a newly built mapping. -/
def filter_dict {K V : Type} : List (K × V) → ((K × V) → Bool) → List (K × V)
  | [], _ => []
  | kv :: rest, cb => if cb kv then kv :: filter_dict rest cb else filter_dict rest cb

/-- Split a character list at every slash. -/
def splitSlash : List Char → List (List Char)
  | [] => [[]]
  | c :: cs =>
    let r := splitSlash cs
    if c = '/' then [] :: r
    else
      match r with
      | h :: t => (c :: h) :: t
      | [] => [[c]]

/-- A nonempty all-digit character list read as a decimal natural number. -/
def natOfChars (cs : List Char) : Option Nat :=
  match cs with
  | [] => none
  | _ =>
    if cs.all (fun c => c.isDigit) then
      some (cs.foldl (fun n c => 10 * n + (c.toNat - 48)) 0)
    else none

/-- Evaluation of a tag string as a Python division expression, as `eval(str(v))`
does on line 62 and line 135.  EXIF numeric tags print either as a decimal
integer literal or as a ratio `n/d` (spec section 6); on those shapes `eval`
returns the exact quotient (split on the slash, parse both sides, divide),
and on anything else (or a zero denominator, Python's `ZeroDivisionError`) it
raises, modelled as `none`. -/
def evalFrac (s : String) : Option ℚ :=
  match splitSlash s.toList with
  | [a] => (natOfChars a).map (fun n => mkRat n 1)
  | [a, b] =>
    match natOfChars a, natOfChars b with
    | some x, some y => if y = 0 then none else some (mkRat x y)
    | _, _ => none
  | _ => none

/-- `collect_tags` (source lines 56-64).  `raw_tags` is the table returned by
`exifread.process_file(f)`.  Note: the filter on line 60 tests membership in
the global `exif_subset`, not in the `tags_subset` parameter.  The aperture
tag's string is evaluated as a numeric expression; all other values keep
their string form.  `none` models the exception raised when that evaluation
fails. -/
def collect_tags (raw_tags : List (String × String)) (tags_subset : List String) :
    Option (List (String × TagVal)) :=
  let selected_tags := filter_dict raw_tags (fun elem => decide (elem.1 ∈ exif_subset))
  selected_tags.mapM (fun kv =>
    if kv.1 = "EXIF FNumber" then (evalFrac kv.2).map (fun q => (kv.1, TagVal.num q))
    else some (kv.1, TagVal.str kv.2))

section TopValues

variable {α : Type} [DecidableEq α]

/-- The distinct non-missing values of a column; `value_counts` drops missing
cells (pandas `dropna=True` default). -/
def distincts (col : List (Option α)) : List α := (col.filterMap id).dedup

/-- The number of rows of the column holding the value `v`. -/
def colCount (col : List (Option α)) (v : α) : Nat :=
  col.countP (fun c => decide (c = some v))

/-- The comparison by which `value_counts` orders its result: higher count
first. -/
def countGe (p q : α × Nat) : Prop := q.2 ≤ p.2

instance : DecidableRel (@countGe α) := fun p q => Nat.decLe q.2 p.2

instance : IsTotal (α × Nat) (@countGe α) :=
  ⟨fun p q => Nat.le_total q.2 p.2⟩

instance : IsTrans (α × Nat) (@countGe α) :=
  ⟨fun _ _ _ h1 h2 => le_trans h2 h1⟩

/-- `values.value_counts()` (source line 77): each distinct non-missing value
paired with its count, sorted by count, largest first.  Pandas leaves the
relative order of equal counts unspecified; the model fixes one resolution
(a sort over the dedup order). -/
def valueCounts (col : List (Option α)) : List (α × Nat) :=
  ((distincts col).map (fun v => (v, colCount col v))).insertionSort countGe

/-- `values.value_counts().nlargest(10).index` (source line 77): the ten most
frequent values of the column. -/
def topIdx (col : List (Option α)) : List α :=
  ((valueCounts col).take 10).map Prod.fst

/-- The row selection `data[values.isin(top)]` restricted to column `x`
(source line 78), walking the column from row index `i` upward: rows keep
their original labels and order, and a missing cell is never selected
(`isin` is false at NaN). -/
def selFrom (top : List α) : Nat → List (Option α) → List (Nat × α)
  | _, [] => []
  | i, none :: rest => selFrom top (i + 1) rest
  | i, some v :: rest =>
    if v ∈ top then (i, v) :: selFrom top (i + 1) rest
    else selFrom top (i + 1) rest

/-- `sel_top_vals` (source lines 75-80): the Series of column values of the
rows whose value lies in the top-10 set, with original index labels. -/
def sel_top_vals (col : List (Option α)) : List (Nat × α) :=
  selFrom (topIdx col) 0 col

end TopValues

/-- The rows of a column, with their original index labels, whose cell is
present, in original order: what the spec's "all rows" degenerates to for
`sel_top_vals` once the missing-cell rows are dropped, and the shape the
selection takes when every present value is in the top set. -/
def presentRows {α : Type} : Nat → List (Option α) → List (Nat × α)
  | _, [] => []
  | i, none :: rest => presentRows (i + 1) rest
  | i, some v :: rest => (i, v) :: presentRows (i + 1) rest

/-- Python `d[k]` lookup on the association-list model of a dict. -/
def lookupKey {K V : Type} [DecidableEq K] (k : K) : List (K × V) → Option V
  | [] => none
  | kv :: rest => if kv.1 = k then some kv.2 else lookupKey k rest

/-- The ascending numeric order used on the evaluated shutter-speed Series. -/
def valLe (p q : Nat × ℚ) : Prop := p.2 ≤ q.2

instance : DecidableRel valLe := fun p q => inferInstanceAs (Decidable (p.2 ≤ q.2))

instance : IsTotal (Nat × ℚ) valLe := ⟨fun p q => le_total p.2 q.2⟩

instance : IsTrans (Nat × ℚ) valLe := ⟨fun _ _ _ h1 h2 => le_trans h1 h2⟩

/-- Source line 135: the shutter-speed Series is re-indexed with `.iloc` using
the index labels of the `eval`-sorted Series
(`.apply(lambda x: eval(x)).sort_values().index`).  `.iloc` is positional, so
a label that is not a valid position into the Series raises `IndexError`,
modelled as `none`; `eval` failing on a value also raises. -/
def sortedShutterSpeeds (col : List (Option String)) : Option (List String) :=
  let sub := sel_top_vals col
  (sub.mapM (fun p => (evalFrac p.2).map (fun q => (p.1, q)))).bind (fun ev =>
    let labels := (ev.insertionSort valLe).map Prod.fst
    labels.mapM (fun p => (sub.get? p).map Prod.snd))

/-- A file on disk: its name and the raw tag table `exifread.process_file`
extracts from its contents. -/
abbrev RawFile := String × List (String × String)

/-- A directory: its regular files, then its subdirectories. -/
inductive FsDir where
  | mk : List RawFile → List FsDir → FsDir

mutual

/-- `os.walk` top-down order: a directory's own files, then the files of its
subdirectories, recursively, in order. -/
def walkFiles : FsDir → List RawFile
  | .mk files subdirs => files ++ walkAll subdirs

def walkAll : List FsDir → List RawFile
  | [] => []
  | d :: ds => walkFiles d ++ walkAll ds

end

/-- The suffix of a character list starting at its last dot, when a dot
occurs. -/
def extAfterDots : List Char → Option (List Char)
  | [] => none
  | c :: cs =>
    match extAfterDots cs with
    | some s => some s
    | none => if c = '.' then some (c :: cs) else none

/-- `os.path.splitext(path)[-1]`: the extension of the basename, everything
from its last dot on; leading dots of the basename do not start an
extension. -/
def extOf (name : String) : String :=
  let cs := name.toList
  let rest := cs.drop (cs.takeWhile (fun c => c = '.')).length
  match extAfterDots rest with
  | some s => String.mk s
  | none => ""

/-- The two recognized raw-photo extensions (source line 92). -/
def wantedExts : List String := [".nef", ".raw"]

/-- Python `str.lower()`, character by character. -/
def lowerStr (s : String) : String := String.mk (s.toList.map Char.toLower)

/-- Line 90-92: `ext = os.path.splitext(filepath)[-1].lower()` followed by the
membership test against the recognized extensions. -/
def extOk (f : RawFile) : Bool := decide (lowerStr (extOf f.1) ∈ wantedExts)

/-- `harvest_exifs_from_dir` (source lines 85-100): walk the tree, skip files
whose extension is not recognized, and for each remaining file append the
record produced by `collect_tags` with the fixed wanted set; an exception
from `collect_tags` propagates and aborts the harvest (`none`). -/
def harvest_exifs_from_dir (d : FsDir) : Option (List (List (String × TagVal))) :=
  ((walkFiles d).filter extOk).mapM (fun f => collect_tags f.2 exif_subset)

/-- A file-handle event of one harvest run. -/
inductive FsEvent where
  | fopen (k : Nat)
  | fclose (k : Nat)
  | record
deriving DecidableEq, Repr

/-- The harvest loop of lines 85-100 instrumented with its file-handle events,
over the walk-ordered files, numbering matching files from `k`: line 95 opens
the k-th matching file's handle, then either line 98 appends the record, or
the exception from `collect_tags` propagates and ends the run.  The source
contains no `close` call and no `with` block, so no `fclose` event is ever
emitted. -/
def harvestTrace : Nat → List RawFile → List FsEvent
  | _, [] => []
  | k, f :: rest =>
    if extOk f then
      FsEvent.fopen k ::
        (match collect_tags f.2 exif_subset with
         | some _ => FsEvent.record :: harvestTrace (k + 1) rest
         | none => [])
    else harvestTrace k rest

def isCloseEv : FsEvent → Bool
  | .fclose _ => true
  | _ => false

def isOpenEv : FsEvent → Bool
  | .fopen _ => true
  | _ => false

/-- Handles still open after the events `tr`: opens minus closes. -/
def openHandles (tr : List FsEvent) : Nat :=
  tr.countP isOpenEv - tr.countP isCloseEv

/-- Output produced by `parse_arguments`. -/
inductive OutMsg where
  | warn (args : List String)
  | helpText
deriving DecidableEq, Repr

/-- An argument is option-like when it starts with a dash. -/
def startsDash (a : String) : Bool :=
  match a.toList with
  | '-' :: _ => true
  | _ => false

/-- Modelled external collaborator: `argparse`'s `parse_known_args` for the
parser of lines 13-14, which declares the single required positional `dir`.
The first non-option argument fills `dir`; option-like arguments and extra
positionals are returned as the unknown remainder; a missing required
positional is a parse error (argparse exits). -/
def parse_known_args (argv : List String) :
    Except String (String × List String) :=
  match argv.filter (fun a => !startsDash a) with
  | [] => Except.error "the following arguments are required: dir"
  | d :: extra =>
    Except.ok (d, argv.filter (fun a => startsDash a) ++ extra)

/-- `parse_arguments` (source lines 103-110): when unknown arguments are
present, print a warning and the help text, and in every parsed case return
the recognized namespace (its `dir` field) normally. -/
def parse_arguments (argv : List String) :
    Except String (List OutMsg × String) :=
  match parse_known_args argv with
  | Except.error e => Except.error e
  | Except.ok (dir, unknown_args) =>
    Except.ok
      ((if unknown_args.isEmpty then [] else [OutMsg.warn unknown_args, OutMsg.helpText]),
       dir)

/-! ### Helper lemmas -/

theorem filter_dict_eq_filter {K V : Type} (m : List (K × V)) (cb : (K × V) → Bool) :
    filter_dict m cb = m.filter cb := by
  induction m with
  | nil => rfl
  | cons kv rest ih =>
    by_cases h : cb kv <;> simp [filter_dict, List.filter_cons, h, ih]

theorem mapM_option_spec {A B : Type} (f : A → Option B) :
    ∀ (l : List A) (r : List B), l.mapM f = some r →
      r.length = l.length ∧ ∀ j : Nat, r[j]? = l[j]?.bind f := by
  intro l
  induction l with
  | nil =>
    intro r h
    simp only [List.mapM_nil, Option.pure_def, Option.some.injEq] at h
    subst h
    simp
  | cons a l ih =>
    intro r h
    rw [List.mapM_cons] at h
    cases hfa : f a with
    | none => rw [hfa] at h; simp at h
    | some b =>
      rw [hfa] at h
      cases hml : l.mapM f with
      | none => rw [hml] at h; simp at h
      | some bs =>
        rw [hml] at h
        simp at h
        subst h
        obtain ⟨hl, hp⟩ := ih bs hml
        refine ⟨by simp [hl], ?_⟩
        intro j
        cases j with
        | zero => simp [hfa]
        | succ j => simpa using hp j

theorem mapM_option_mem {A B : Type} (f : A → Option B) (l : List A) (r : List B)
    (h : l.mapM f = some r) : ∀ b ∈ r, ∃ a ∈ l, f a = some b := by
  intro b hb
  obtain ⟨-, hp⟩ := mapM_option_spec f l r h
  obtain ⟨j, hj⟩ := List.mem_iff_getElem?.mp hb
  have := hp j
  rw [hj] at this
  cases hlj : l[j]? with
  | none => rw [hlj] at this; simp at this
  | some a =>
    rw [hlj] at this
    exact ⟨a, List.mem_iff_getElem?.mpr ⟨j, hlj⟩, this.symm⟩

section TopValuesLemmas

variable {α : Type} [DecidableEq α]

theorem mem_selFrom (top : List α) :
    ∀ (col : List (Option α)) (n i : Nat) (v : α),
      ((i, v) ∈ selFrom top n col ↔
        ∃ j : Nat, i = n + j ∧ col[j]? = some (some v) ∧ v ∈ top) := by
  intro col
  induction col with
  | nil => intro n i v; simp [selFrom]
  | cons c rest ih =>
    intro n i v
    cases c with
    | none =>
      rw [show selFrom top n (none :: rest) = selFrom top (n + 1) rest from rfl,
        ih (n + 1) i v]
      constructor
      · rintro ⟨j, rfl, hj, hv⟩
        exact ⟨j + 1, by omega, by simpa using hj, hv⟩
      · rintro ⟨j, rfl, hj, hv⟩
        cases j with
        | zero => simp at hj
        | succ j => exact ⟨j, by omega, by simpa using hj, hv⟩
    | some w =>
      rw [show selFrom top n (some w :: rest) =
          (if w ∈ top then (n, w) :: selFrom top (n + 1) rest
           else selFrom top (n + 1) rest) from rfl]
      by_cases hw : w ∈ top
      · rw [if_pos hw]
        simp only [List.mem_cons, Prod.mk.injEq]
        rw [ih (n + 1) i v]
        constructor
        · rintro (⟨rfl, rfl⟩ | ⟨j, rfl, hj, hv⟩)
          · exact ⟨0, by omega, by simp, hw⟩
          · exact ⟨j + 1, by omega, by simpa using hj, hv⟩
        · rintro ⟨j, rfl, hj, hv⟩
          cases j with
          | zero =>
            left
            simp only [List.getElem?_cons_zero, Option.some.injEq] at hj
            exact ⟨by omega, hj.symm⟩
          | succ j => right; exact ⟨j, by omega, by simpa using hj, hv⟩
      · rw [if_neg hw, ih (n + 1) i v]
        constructor
        · rintro ⟨j, rfl, hj, hv⟩
          exact ⟨j + 1, by omega, by simpa using hj, hv⟩
        · rintro ⟨j, rfl, hj, hv⟩
          cases j with
          | zero =>
            simp only [List.getElem?_cons_zero, Option.some.injEq] at hj
            exact absurd (hj ▸ hv) hw
          | succ j => exact ⟨j, by omega, by simpa using hj, hv⟩

theorem mem_sel_top_vals (col : List (Option α)) (i : Nat) (v : α) :
    (i, v) ∈ sel_top_vals col ↔ col[i]? = some (some v) ∧ v ∈ topIdx col := by
  rw [sel_top_vals, mem_selFrom]
  constructor
  · rintro ⟨j, rfl, hj, hv⟩
    simpa using ⟨hj, hv⟩
  · rintro ⟨hi, hv⟩
    exact ⟨i, by omega, hi, hv⟩

theorem mem_distincts (col : List (Option α)) (v : α) :
    v ∈ distincts col ↔ some v ∈ col := by
  simp [distincts, List.mem_dedup, List.mem_filterMap]

theorem nodup_distincts (col : List (Option α)) : (distincts col).Nodup :=
  List.nodup_dedup _

theorem valueCounts_perm (col : List (Option α)) :
    List.Perm (valueCounts col)
      ((distincts col).map (fun v => (v, colCount col v))) :=
  List.perm_insertionSort _ _

theorem mem_valueCounts (col : List (Option α)) (p : α × Nat) :
    p ∈ valueCounts col ↔ p.1 ∈ distincts col ∧ p.2 = colCount col p.1 := by
  rw [valueCounts, List.mem_insertionSort, List.mem_map]
  constructor
  · rintro ⟨v, hv, rfl⟩
    exact ⟨hv, rfl⟩
  · rintro ⟨h1, h2⟩
    exact ⟨p.1, h1, by rw [← h2]⟩

theorem valueCounts_map_fst_perm (col : List (Option α)) :
    List.Perm ((valueCounts col).map Prod.fst) (distincts col) := by
  have h := (valueCounts_perm col).map Prod.fst
  rw [List.map_map] at h
  have e : (Prod.fst ∘ fun v : α => (v, colCount col v)) = id := rfl
  rw [e, List.map_id] at h
  exact h

theorem nodup_valueCounts_fst (col : List (Option α)) :
    ((valueCounts col).map Prod.fst).Nodup :=
  (valueCounts_map_fst_perm col).nodup_iff.mpr (nodup_distincts col)

theorem length_valueCounts (col : List (Option α)) :
    (valueCounts col).length = (distincts col).length := by
  have h := (valueCounts_perm col).length_eq
  simpa using h

theorem sorted_valueCounts (col : List (Option α)) :
    (valueCounts col).Pairwise countGe :=
  List.sorted_insertionSort countGe _

theorem topIdx_eq_take (col : List (Option α)) :
    topIdx col = ((valueCounts col).map Prod.fst).take 10 := by
  rw [topIdx, List.map_take]

theorem nodup_topIdx (col : List (Option α)) : (topIdx col).Nodup := by
  rw [topIdx_eq_take]
  exact List.Nodup.sublist (List.take_sublist _ _) (nodup_valueCounts_fst col)

theorem mem_topIdx_distincts (col : List (Option α)) (v : α) :
    v ∈ topIdx col → v ∈ distincts col := by
  rw [topIdx_eq_take]
  intro h
  exact (valueCounts_map_fst_perm col).mem_iff.mp (List.take_subset _ _ h)

theorem length_topIdx (col : List (Option α)) :
    (topIdx col).length = min 10 (distincts col).length := by
  rw [topIdx_eq_take, List.length_take, List.length_map, length_valueCounts]

theorem topIdx_of_lt_ten (col : List (Option α))
    (h : (distincts col).length < 10) (v : α) :
    v ∈ topIdx col ↔ v ∈ distincts col := by
  rw [topIdx_eq_take, List.take_of_length_le (by
    rw [List.length_map, length_valueCounts]; omega)]
  exact (valueCounts_map_fst_perm col).mem_iff

theorem topIdx_dominates (col : List (Option α)) (v w : α) (hv : v ∈ topIdx col)
    (hw : w ∈ distincts col) (hwn : w ∉ topIdx col) :
    colCount col w ≤ colCount col v := by
  rw [topIdx, List.mem_map] at hv
  obtain ⟨pv, hpv_mem, hpv1⟩ := hv
  have hpv_vc : pv ∈ valueCounts col := List.take_subset _ _ hpv_mem
  have hpv2 : pv.2 = colCount col v := by
    have h := ((mem_valueCounts col pv).mp hpv_vc).2
    rw [h, hpv1]
  have hw_vc : (w, colCount col w) ∈ valueCounts col :=
    (mem_valueCounts col (w, colCount col w)).mpr ⟨hw, rfl⟩
  have hw_drop : (w, colCount col w) ∈ (valueCounts col).drop 10 := by
    have hsplit : (w, colCount col w) ∈
        (valueCounts col).take 10 ++ (valueCounts col).drop 10 := by
      rw [List.take_append_drop]; exact hw_vc
    rcases List.mem_append.mp hsplit with htk | hd
    · exact absurd (by rw [topIdx, List.mem_map]; exact ⟨_, htk, rfl⟩) hwn
    · exact hd
  have hpw : (valueCounts col).take 10 ++ (valueCounts col).drop 10
      |>.Pairwise countGe := by
    rw [List.take_append_drop]; exact sorted_valueCounts col
  obtain ⟨-, -, hcross⟩ := List.pairwise_append.mp hpw
  have h := hcross pv hpv_mem (w, colCount col w) hw_drop
  rw [countGe] at h
  simpa [hpv2] using h

theorem selFrom_eq_presentRows (top : List α) :
    ∀ (col : List (Option α)) (n : Nat), (∀ v : α, some v ∈ col → v ∈ top) →
      selFrom top n col = presentRows n col := by
  intro col
  induction col with
  | nil => intro n _; rfl
  | cons c rest ih =>
    intro n hall
    cases c with
    | none =>
      rw [show selFrom top n (none :: rest) = selFrom top (n + 1) rest from rfl,
        show presentRows n (none :: rest) = presentRows (n + 1) rest from rfl]
      exact ih (n + 1) (fun v hv => hall v (List.mem_cons_of_mem _ hv))
    | some w =>
      have hw : w ∈ top := hall w (List.mem_cons_self _ _)
      rw [show selFrom top n (some w :: rest) =
          (if w ∈ top then (n, w) :: selFrom top (n + 1) rest
           else selFrom top (n + 1) rest) from rfl,
        if_pos hw,
        show presentRows n (some w :: rest) = (n, w) :: presentRows (n + 1) rest
          from rfl]
      exact congrArg _ (ih (n + 1) (fun v hv => hall v (List.mem_cons_of_mem _ hv)))

theorem filterMap_id_filter_isSome (col : List (Option α)) :
    (col.filter (fun c => c.isSome)).filterMap id = col.filterMap id := by
  induction col with
  | nil => rfl
  | cons c rest ih => cases c <;> simp [List.filter_cons, ih]

theorem colCount_filter_isSome (col : List (Option α)) (v : α) :
    colCount (col.filter (fun c => c.isSome)) v = colCount col v := by
  induction col with
  | nil => rfl
  | cons c rest ih =>
    cases c <;> simp [colCount, List.filter_cons, List.countP_cons] at ih ⊢ <;> omega

theorem valueCounts_filter_isSome (col : List (Option α)) :
    valueCounts (col.filter (fun c => c.isSome)) = valueCounts col := by
  rw [valueCounts, valueCounts, distincts, distincts, filterMap_id_filter_isSome]
  congr 1
  apply List.map_congr_left
  intro v _
  rw [colCount_filter_isSome]

end TopValuesLemmas

/-! ### Claim theorems -/

/-- C1, counterexample: the claim fails as stated.  A dataset whose column
consists of one missing cell has fewer than 10 distinct values, yet
`sel_top_vals` does not return all rows unchanged: the missing-cell row is
dropped, so the result has fewer rows than the dataset. -/
theorem sel_top_vals_missing_cell_cex :
    (distincts ([none] : List (Option Nat))).length < 10
  ∧ (sel_top_vals ([none] : List (Option Nat))).length ≠
      ([none] : List (Option Nat)).length :=
  ⟨by decide, by decide⟩

/-- C1, amended: for every dataset and column with fewer than 10 distinct
non-missing values, `sel_top_vals` returns exactly the rows whose cell in the
column is present, unchanged, preserving original row order and original row
identity (index labels) — in particular all rows whenever no cell is
missing. -/
theorem sel_top_vals_lt_ten_present_rows {α : Type} [DecidableEq α]
    (col : List (Option α)) (h : (distincts col).length < 10) :
    sel_top_vals col = presentRows 0 col := by
  rw [sel_top_vals]
  apply selFrom_eq_presentRows
  intro v hv
  exact (topIdx_of_lt_ten col h v).mpr ((mem_distincts col v).mpr hv)

/-- Witness for the amended C1 theorem at a concrete column: three present
cells, one missing, three distinct values. -/
theorem sel_top_vals_lt_ten_present_rows_w :
    (distincts ([some 1, none, some 2, some 1] : List (Option Nat))).length < 10
  ∧ sel_top_vals ([some 1, none, some 2, some 1] : List (Option Nat)) =
      [(0, 1), (2, 2), (3, 1)] :=
  ⟨by decide,
    (sel_top_vals_lt_ten_present_rows _ (by decide)).trans (by decide)⟩

/-- C2: the harvest loop never emits a close event for any file handle it
opens — the source opens each file on line 95 without a `with` block and
never calls `close`.  Concretely, with two matching readable files the second
is opened while the first handle is still open (two handles open right after
the second open event), and when the tag collection fails the opened handle
is not closed either. -/
theorem harvest_trace_never_closes :
    (∀ (k : Nat) (files : List RawFile),
      (harvestTrace k files).countP isCloseEv = 0)
  ∧ harvestTrace 0 [("a.nef", [("EXIF ExposureTime", "1/250")]), ("b.nef", [])]
      = [FsEvent.fopen 0, FsEvent.record, FsEvent.fopen 1, FsEvent.record]
  ∧ openHandles ((harvestTrace 0
      [("a.nef", [("EXIF ExposureTime", "1/250")]), ("b.nef", [])]).take 3) = 2
  ∧ harvestTrace 0 [("c.nef", [("EXIF FNumber", "bogus")])] = [FsEvent.fopen 0] := by
  refine ⟨?_, by decide, by decide, by decide⟩
  intro k files
  induction files generalizing k with
  | nil => rfl
  | cons f rest ih =>
    rw [harvestTrace]
    by_cases hf : extOk f
    · rw [if_pos hf]
      cases hc : collect_tags f.2 exif_subset with
      | some r => simp [List.countP_cons, isCloseEv, ih]
      | none => simp [List.countP_cons, isCloseEv]
    · rw [if_neg hf]
      exact ih k

/-- C3: `collect_tags` filters by the global `exif_subset`, not by its
`tags_subset` parameter (line 60).  With the empty wanted list it still
returns the aperture entry: a mapping with one entry, whose key is not in
the wanted list, exceeding the claimed bound of `len(wantedTagNames) = 0`
entries. -/
theorem collect_tags_ignores_param :
    collect_tags [("EXIF FNumber", "28/10")] [] =
      some [("EXIF FNumber", TagVal.num (mkRat 14 5))]
  ∧ "EXIF FNumber" ∉ ([] : List String)
  ∧ ([] : List String).length < [("EXIF FNumber", TagVal.num (mkRat 14 5))].length :=
  ⟨by decide, by decide, by decide⟩

/-- C4: on the claim's own three-value example the reordering is the claimed
ascending numeric order; but on a column where the top-10 filtering drops a
row (here the missing-cell row 0), the subset's index labels are no longer
valid positions and the positional `.iloc` lookup of line 135 raises
`IndexError` instead of reordering. -/
theorem sortedShutterSpeeds_cases :
    sortedShutterSpeeds [some "1/500", some "1/60", some "1/250"] =
      some ["1/500", "1/250", "1/60"]
  ∧ sortedShutterSpeeds [none, some "1/250"] = none :=
  ⟨by decide, by decide⟩

/-- C5: every entry of a successful `collect_tags` result carries the raw
tag's string form, except the aperture tag, whose string form is evaluated as
a numeric ratio expression; the evaluation sends "28/10" to 2.8 and "40/10"
to 4.0. -/
theorem collect_tags_normalizes (raw : List (String × String)) (ts : List String)
    (out : List (String × TagVal)) (h : collect_tags raw ts = some out) :
    (∀ k tv, (k, tv) ∈ out → ∃ v, (k, v) ∈ raw ∧
        ((k = "EXIF FNumber" ∧ ∃ q, evalFrac v = some q ∧ tv = TagVal.num q)
          ∨ (k ≠ "EXIF FNumber" ∧ tv = TagVal.str v)))
  ∧ evalFrac "28/10" = some (2.8 : ℚ)
  ∧ evalFrac "40/10" = some (4.0 : ℚ) := by
  refine ⟨?_, ?_, ?_⟩
  · intro k tv hm
    rw [collect_tags] at h
    obtain ⟨a, hsel, hf⟩ := mapM_option_mem _ _ _ h (k, tv) hm
    obtain ⟨k', v⟩ := a
    have hraw : (k', v) ∈ raw := by
      rw [filter_dict_eq_filter] at hsel
      exact (List.mem_filter.mp hsel).1
    by_cases hk : k' = "EXIF FNumber"
    · subst hk
      simp only [if_pos rfl] at hf
      obtain ⟨q, he, hq⟩ := Option.map_eq_some'.mp hf
      obtain ⟨rfl, rfl⟩ := Prod.mk.injEq .. ▸ hq
      exact ⟨v, hraw, Or.inl ⟨rfl, q, he, rfl⟩⟩
    · rw [if_neg hk] at hf
      simp only [Option.some.injEq] at hf
      obtain ⟨rfl, rfl⟩ := Prod.mk.injEq .. ▸ hf
      exact ⟨v, hraw, Or.inr ⟨hk, rfl⟩⟩
  · have h1 : evalFrac "28/10" = some (mkRat 14 5) := by decide
    rw [h1, Option.some.injEq]
    norm_num
  · have h2 : evalFrac "40/10" = some (mkRat 4 1) := by decide
    rw [h2, Option.some.injEq]
    norm_num

/-- Witness for C5 at a concrete raw tag table (one unwanted tag, one
aperture tag). -/
theorem collect_tags_normalizes_w :
    collect_tags [("EXIF FNumber", "28/10"), ("Image Model", "NIKON")] exif_subset =
      some [("EXIF FNumber", TagVal.num (mkRat 14 5))]
  ∧ evalFrac "28/10" = some (2.8 : ℚ)
  ∧ evalFrac "40/10" = some (4.0 : ℚ) :=
  ⟨by decide,
    (collect_tags_normalizes [("EXIF FNumber", "28/10"), ("Image Model", "NIKON")]
      exif_subset [("EXIF FNumber", TagVal.num (mkRat 14 5))] (by decide)).2.1,
    (collect_tags_normalizes [("EXIF FNumber", "28/10"), ("Image Model", "NIKON")]
      exif_subset [("EXIF FNumber", TagVal.num (mkRat 14 5))] (by decide)).2.2⟩

/-- C6: with at least 10 distinct non-missing values in the column, the
selection's values form exactly 10 distinct values; every returned row's
value belongs to the computed top-10 value set, and each value of that set
occurs at least as often in the column as every value excluded from it. -/
theorem sel_top_vals_ten_distinct {α : Type} [DecidableEq α]
    (col : List (Option α)) (h : 10 ≤ (distincts col).length) :
    ((sel_top_vals col).map Prod.snd).toFinset.card = 10
  ∧ (∀ i v, (i, v) ∈ sel_top_vals col → v ∈ topIdx col)
  ∧ (∀ v ∈ topIdx col, ∀ w ∈ distincts col, w ∉ topIdx col →
      colCount col w ≤ colCount col v) := by
  refine ⟨?_, fun i v hiv => ((mem_sel_top_vals col i v).mp hiv).2,
    fun v hv w hw hwn => topIdx_dominates col v w hv hw hwn⟩
  have hset : ((sel_top_vals col).map Prod.snd).toFinset = (topIdx col).toFinset := by
    ext v
    simp only [List.mem_toFinset, List.mem_map]
    constructor
    · rintro ⟨⟨i, v'⟩, hm, rfl⟩
      exact ((mem_sel_top_vals col i v').mp hm).2
    · intro hv
      have hsc : some v ∈ col :=
        (mem_distincts col v).mp (mem_topIdx_distincts col v hv)
      obtain ⟨i, hi⟩ := List.mem_iff_getElem?.mp hsc
      exact ⟨(i, v), (mem_sel_top_vals col i v).mpr ⟨hi, hv⟩, rfl⟩
  rw [hset, List.toFinset_card_of_nodup (nodup_topIdx col), length_topIdx]
  omega

/-- Witness for C6 at a column with exactly 10 distinct present values. -/
theorem sel_top_vals_ten_distinct_w :
    10 ≤ (distincts ((List.range 10).map (fun i => (some i : Option Nat)))).length
  ∧ ((sel_top_vals ((List.range 10).map (fun i => (some i : Option Nat)))).map
      Prod.snd).toFinset.card = 10 :=
  ⟨by decide, (sel_top_vals_ten_distinct _ (by decide)).1⟩

/-- C7: a successful harvest has exactly one record per extension-matching
file of the recursive walk, in walk order: the j-th record is the tag
collection of the j-th matching file, whatever number of fields it has, and
a file is kept by the filter exactly when its lowercased extension is
recognized. -/
theorem harvest_spec (d : FsDir) (recs : List (List (String × TagVal)))
    (h : harvest_exifs_from_dir d = some recs) :
    recs.length = ((walkFiles d).filter extOk).length
  ∧ (∀ j : Nat, recs[j]? =
      ((walkFiles d).filter extOk)[j]?.bind (fun f => collect_tags f.2 exif_subset))
  ∧ (∀ f : RawFile,
      f ∈ (walkFiles d).filter extOk ↔ f ∈ walkFiles d ∧ extOk f = true) := by
  rw [harvest_exifs_from_dir] at h
  obtain ⟨hl, hp⟩ := mapM_option_spec _ _ _ h
  exact ⟨hl, hp, fun f => by simp [List.mem_filter]⟩

/-- Witness for C7: a root with `a.NEF` (one tag), `c.jpg`, `d.txt` and a
subdirectory holding `b.raw` (no tags) harvests exactly two records, in walk
order, including the empty partial record for `b.raw`. -/
theorem harvest_spec_w :
    harvest_exifs_from_dir
      (FsDir.mk [("a.NEF", [("EXIF ExposureTime", "1/250")]),
          ("c.jpg", [("EXIF ISOSpeedRatings", "200")]), ("d.txt", [])]
        [FsDir.mk [("b.raw", [])] []]) =
      some [[("EXIF ExposureTime", TagVal.str "1/250")], []]
  ∧ ([[("EXIF ExposureTime", TagVal.str "1/250")], []] :
      List (List (String × TagVal))).length =
      ((walkFiles (FsDir.mk [("a.NEF", [("EXIF ExposureTime", "1/250")]),
          ("c.jpg", [("EXIF ISOSpeedRatings", "200")]), ("d.txt", [])]
        [FsDir.mk [("b.raw", [])] []])).filter extOk).length :=
  ⟨by decide,
    (harvest_spec (FsDir.mk [("a.NEF", [("EXIF ExposureTime", "1/250")]),
          ("c.jpg", [("EXIF ISOSpeedRatings", "200")]), ("d.txt", [])]
        [FsDir.mk [("b.raw", [])] []])
      [[("EXIF ExposureTime", TagVal.str "1/250")], []] (by decide)).1⟩

theorem lookupKey_eq_some_iff {K V : Type} [DecidableEq K] (m : List (K × V))
    (hnd : (m.map Prod.fst).Nodup) (k : K) (v : V) :
    lookupKey k m = some v ↔ (k, v) ∈ m := by
  induction m with
  | nil => simp [lookupKey]
  | cons kv rest ih =>
    obtain ⟨k0, v0⟩ := kv
    simp only [List.map_cons, List.nodup_cons] at hnd
    obtain ⟨hk0, hnd2⟩ := hnd
    rw [show lookupKey k ((k0, v0) :: rest) =
        (if k0 = k then some v0 else lookupKey k rest) from rfl]
    by_cases hek : k0 = k
    · subst hek
      rw [if_pos rfl]
      simp only [Option.some.injEq, List.mem_cons, Prod.mk.injEq]
      constructor
      · intro hv
        exact Or.inl ⟨trivial, hv.symm⟩
      · rintro (⟨-, rfl⟩ | hmem)
        · rfl
        · exact absurd (List.mem_map_of_mem Prod.fst hmem) hk0
    · rw [if_neg hek, ih hnd2]
      simp only [List.mem_cons, Prod.mk.injEq]
      constructor
      · exact fun hm => Or.inr hm
      · rintro (⟨rfl, -⟩ | hm)
        · exact absurd rfl hek
        · exact hm

/-- C8: the keys of `filter_dict m cb` are exactly the keys of `m` whose
(key, value) pair satisfies the callback, each kept key still mapped to its
original value (the result's pairs are pairs of `m`), and an empty mapping
yields an empty mapping.  The embedding is pure, so the input mapping is
untouched by construction. -/
theorem filter_dict_spec {K V : Type} [DecidableEq K] (m : List (K × V))
    (cb : (K × V) → Bool) (hnd : (m.map Prod.fst).Nodup) :
    (∀ k : K, k ∈ (filter_dict m cb).map Prod.fst ↔
      ∃ v, lookupKey k m = some v ∧ cb (k, v) = true)
  ∧ (∀ k v, (k, v) ∈ filter_dict m cb → (k, v) ∈ m ∧ lookupKey k m = some v)
  ∧ filter_dict ([] : List (K × V)) cb = [] := by
  refine ⟨?_, ?_, rfl⟩
  · intro k
    rw [filter_dict_eq_filter]
    simp only [List.mem_map, List.mem_filter]
    constructor
    · rintro ⟨⟨k1, v⟩, ⟨hmem, hcb⟩, rfl⟩
      exact ⟨v, (lookupKey_eq_some_iff m hnd _ _).mpr hmem, hcb⟩
    · rintro ⟨v, hlk, hcb⟩
      exact ⟨(k, v), ⟨(lookupKey_eq_some_iff m hnd _ _).mp hlk, hcb⟩, rfl⟩
  · intro k v hm
    rw [filter_dict_eq_filter] at hm
    have h1 := (List.mem_filter.mp hm).1
    exact ⟨h1, (lookupKey_eq_some_iff m hnd _ _).mpr h1⟩

/-- Witness for C8 at a concrete two-entry mapping and a concrete predicate:
the kept pair is a pair of the original mapping with its original value. -/
theorem filter_dict_spec_w :
    (([(1, "a"), (2, "b")] : List (Nat × String)).map Prod.fst).Nodup
  ∧ ((1, "a") ∈ ([(1, "a"), (2, "b")] : List (Nat × String))
      ∧ lookupKey 1 ([(1, "a"), (2, "b")] : List (Nat × String)) = some "a") :=
  ⟨by decide,
    (filter_dict_spec [(1, "a"), (2, "b")] (fun p => decide (p.1 = 1))
      (by decide)).2.1 1 "a" (by decide)⟩

/-- C9: when `parse_known_args` recognizes the directory argument but leaves
a nonempty unknown remainder, `parse_arguments` prints the warning and the
help text and still returns normally with the recognized directory — it does
not abort. -/
theorem parse_arguments_warns_continues (argv : List String) (d : String)
    (unknown : List String) (h : parse_known_args argv = Except.ok (d, unknown))
    (hu : unknown ≠ []) :
    parse_arguments argv =
      Except.ok ([OutMsg.warn unknown, OutMsg.helpText], d) := by
  unfold parse_arguments
  rw [h]
  have he : unknown.isEmpty = false := by
    cases unknown with
    | nil => exact absurd rfl hu
    | cons a l => rfl
  simp [he]

/-- Witness for C9: one recognized directory plus one unknown option. -/
theorem parse_arguments_warns_continues_w :
    parse_known_args ["photos", "--bogus"] = Except.ok ("photos", ["--bogus"])
  ∧ (["--bogus"] : List String) ≠ []
  ∧ parse_arguments ["photos", "--bogus"] =
      Except.ok ([OutMsg.warn ["--bogus"], OutMsg.helpText], "photos") :=
  ⟨by rfl, by decide,
    parse_arguments_warns_continues ["photos", "--bogus"] "photos" ["--bogus"]
      (by rfl) (by decide)⟩

/-- C10: every row returned by `sel_top_vals` has a present cell at its index
label — a row with a missing cell is never included — and the frequency
table that determines the top-10 values is identical to the one computed
with all missing cells deleted, unconditionally, hence also when the column
has fewer than 10 distinct non-missing values. -/
theorem sel_top_vals_ignores_missing {α : Type} [DecidableEq α]
    (col : List (Option α)) (i : Nat) (v : α) (h : (i, v) ∈ sel_top_vals col) :
    col[i]? = some (some v)
  ∧ valueCounts col = valueCounts (col.filter (fun c => c.isSome)) :=
  ⟨((mem_sel_top_vals col i v).mp h).1, (valueCounts_filter_isSome col).symm⟩

/-- Witness for C10 at a column with one missing and one present cell. -/
theorem sel_top_vals_ignores_missing_w :
    (1, 3) ∈ sel_top_vals ([none, some 3] : List (Option Nat))
  ∧ (([none, some 3] : List (Option Nat))[1]? = some (some 3)
      ∧ valueCounts ([none, some 3] : List (Option Nat)) =
          valueCounts (([none, some 3] : List (Option Nat)).filter
            (fun c => c.isSome))) :=
  ⟨by decide, sel_top_vals_ignores_missing [none, some 3] 1 3 (by decide)⟩

end PlotTop
